import Mathlib

/-!
Shallow embedding of `crates/q_cli/src/cli/chat/tool_manager.rs`
(tool-provider manager of the Amazon Q developer CLI chat agent).

Conventions of the embedding:
* Rust `HashMap<String, V>` values are modelled as association lists
  `List (String × V)` with `lookupKV` (first match) and `insertPair`
  (replace-in-place or append), which realises `HashMap::insert`'s
  "replace and return the old value" semantics via `lookupKV` + `insertPair`.
* `serde_json::Value` is modelled by the inductive `Json`.
* Client handles (`Arc<CustomToolClient>`) are opaque; we model them as `Nat`.
* External collaborators whose code is not part of the repository
  (Rust std's `DefaultHasher`, `u64::to_string`, the builtin tools'
  parameter shapes, the embedded tool catalog) are modelled from the spec,
  each marked `Modelled from the spec:` in its doc comment.
-/

set_option autoImplicit false

namespace ToolManager

/-- Model of `serde_json::Value`. -/
inductive Json where
  | null : Json
  | bool (b : Bool) : Json
  | num (n : Int) : Json
  | str (s : String) : Json
  | arr (elems : List Json) : Json
  | obj (fields : List (String × Json)) : Json

section MapPrimitives

variable {α : Type}

/-- First-match association-list lookup, modelling `HashMap::get`. -/
def lookupKV : List (String × α) → String → Option α
  | [], _ => none
  | (k, v) :: rest, key => if key == k then some v else lookupKV rest key

/-- Association-list insertion that replaces an existing binding in place
(or appends a fresh one), modelling the key/value state of `HashMap::insert`. -/
def insertPair : List (String × α) → String → α → List (String × α)
  | [], key, val => [(key, val)]
  | (k, v) :: rest, key, val =>
    if key == k then (key, val) :: rest else (k, v) :: insertPair rest key val

/-- The keys of an association list. -/
def keysOf (m : List (String × α)) : List String := m.map Prod.fst

/-- Length of the longest key in the map (0 when empty). -/
def maxKeyLen (m : List (String × α)) : Nat :=
  (keysOf m).foldr (fun k acc => max k.length acc) 0

theorem lookupKV_insertPair (m : List (String × α)) (k k' : String) (v : α) :
    lookupKV (insertPair m k v) k' = if k' == k then some v else lookupKV m k' := by
  induction m with
  | nil => simp [insertPair, lookupKV]
  | cons hd tl ih =>
    obtain ⟨hk, hv⟩ := hd
    by_cases h : (k == hk) = true
    · have hk' : k = hk := eq_of_beq h
      subst hk'
      by_cases h2 : (k' == k) = true
      · simp [insertPair, lookupKV, h, h2]
      · simp [insertPair, lookupKV, h, h2]
    · by_cases h2 : (k' == hk) = true
      · have : k' = hk := eq_of_beq h2
        subst this
        have hne : (k' == k) = false := by
          apply beq_eq_false_iff_ne.mpr
          intro hcontra
          subst hcontra
          simp at h
        simp [insertPair, lookupKV, h, h2, hne]
      · simp [insertPair, lookupKV, h, h2, ih]

theorem mem_keysOf_of_lookupKV (m : List (String × α)) (k : String) (v : α)
    (h : lookupKV m k = some v) : k ∈ keysOf m := by
  induction m with
  | nil => simp [lookupKV] at h
  | cons hd tl ih =>
    obtain ⟨hk, hv⟩ := hd
    by_cases hb : (k == hk) = true
    · have : k = hk := eq_of_beq hb
      subst this
      simp [keysOf]
    · simp only [lookupKV, hb, if_neg] at h
      simp only [keysOf, List.map_cons, List.mem_cons]
      right
      simpa [keysOf] using ih (by simpa using h)

theorem lookupKV_eq_none_of_not_mem (m : List (String × α)) (k : String)
    (h : k ∉ keysOf m) : lookupKV m k = none := by
  induction m with
  | nil => simp [lookupKV]
  | cons hd tl ih =>
    obtain ⟨hk, hv⟩ := hd
    simp only [keysOf, List.map_cons, List.mem_cons, not_or] at h
    have hb : (k == hk) = false := beq_eq_false_iff_ne.mpr h.1
    simp only [lookupKV, hb]
    exact ih (by simpa [keysOf] using h.2)

theorem keysOf_insertPair_of_mem (m : List (String × α)) (k : String) (v : α)
    (h : k ∈ keysOf m) : keysOf (insertPair m k v) = keysOf m := by
  induction m with
  | nil => simp [keysOf] at h
  | cons hd tl ih =>
    obtain ⟨hk, hv⟩ := hd
    by_cases hb : (k == hk) = true
    · have : k = hk := eq_of_beq hb
      subst this
      simp [insertPair, keysOf, hb]
    · have hne : k ≠ hk := by
        intro hcontra; subst hcontra; simp at hb
      simp only [keysOf, List.map_cons, List.mem_cons] at h
      rcases h with h | h
      · exact absurd h hne
      · have hih := ih (by simpa [keysOf] using h)
        simp only [insertPair, hb, Bool.false_eq_true, if_neg, not_false_iff, keysOf,
          List.map_cons]
        simp only [keysOf] at hih
        rw [hih]

theorem length_le_maxKeyLen (m : List (String × α)) (k : String)
    (h : k ∈ keysOf m) : k.length ≤ maxKeyLen m := by
  induction m with
  | nil => simp [keysOf] at h
  | cons hd tl ih =>
    simp only [keysOf, List.map_cons, List.mem_cons] at h
    rcases h with h | h
    · subst h
      simp [maxKeyLen, keysOf, le_max_iff]
    · have := ih (by simpa [keysOf] using h)
      simp only [maxKeyLen, keysOf, List.map_cons, List.foldr_cons]
      exact le_max_of_le_right (by simpa [maxKeyLen, keysOf] using this)

theorem mem_keysOf_insertPair_self (m : List (String × α)) (k : String) (v : α) :
    k ∈ keysOf (insertPair m k v) := by
  induction m with
  | nil => simp [insertPair, keysOf]
  | cons hd tl ih =>
    obtain ⟨hk, hv⟩ := hd
    by_cases hb : (k == hk) = true
    · simp [insertPair, keysOf, hb]
    · simp only [insertPair, hb, Bool.false_eq_true, if_neg, not_false_iff]
      simp only [keysOf, List.map_cons, List.mem_cons]
      right
      simpa [keysOf] using ih

theorem mem_keysOf_insertPair_of_mem (m : List (String × α)) (k k' : String) (v : α)
    (h : k' ∈ keysOf m) : k' ∈ keysOf (insertPair m k v) := by
  induction m with
  | nil => simp [keysOf] at h
  | cons hd tl ih =>
    obtain ⟨hk, hv⟩ := hd
    by_cases hb : (k == hk) = true
    · have hkk : k = hk := eq_of_beq hb
      subst hkk
      have hin : insertPair ((k, hv) :: tl) k v = (k, v) :: tl := by simp [insertPair]
      rw [hin]
      simpa [keysOf] using h
    · simp only [keysOf, List.map_cons, List.mem_cons] at h
      simp only [insertPair, hb, Bool.false_eq_true, if_neg, not_false_iff]
      simp only [keysOf, List.map_cons, List.mem_cons]
      rcases h with h | h
      · exact Or.inl h
      · exact Or.inr (ih h)

end MapPrimitives

/-- The constant `NAMESPACE_DELIMITER` (tool_manager.rs line 49). -/
def NAMESPACE_DELIMITER : String := "___"

/-- One position of the unanchored search performed by `regex::Regex::is_match`
for the pattern `VALID_TOOL_NAME = "[a-zA-Z][a-zA-Z0-9_]*"` (line 52): a match
starts at a given position exactly when the character there is an ASCII letter
(the leading character class must match it, and the trailing `[a-zA-Z0-9_]*`
may match the empty string). -/
def validToolNameHit : List Char → Bool
  | [] => false
  | c :: _ => c.isAlpha

/-- Model of `regex.is_match(s)` for `VALID_TOOL_NAME`: `Regex::is_match` does
an unanchored substring search, so it succeeds iff a match starts at some
position (i.e. at some suffix) of the string. -/
def validToolNameIsMatch (s : String) : Bool :=
  s.data.tails.any validToolNameHit

/-- The spec's required name pattern `[a-zA-Z][a-zA-Z0-9_]*` read as a full
(anchored) match of the whole string: the first character is an ASCII letter
and every later character is an ASCII letter, digit, or underscore. -/
def matchesValidToolName (s : String) : Bool :=
  match s.data with
  | [] => false
  | c :: rest => c.isAlpha && rest.all (fun d => d.isAlpha || d.isDigit || d == '_')

/-- Modelled from the spec: Rust std's `DefaultHasher` is an external
collaborator; spec 4.2 requires only "a shared, order-dependent hashing
accumulator". The state is a `u64` value (`Nat` reduced mod `2 ^ 64`);
writing a string folds its characters into the state. -/
def hasherWriteStr (state : Nat) (s : String) : Nat :=
  (s.data.foldl (fun st c => (st * 31 + c.toNat + 1) % (2 ^ 64)) state) % (2 ^ 64)

/-- Modelled from the spec: `Hasher::finish` extracts the accumulated `u64`
value without resetting the state. -/
def hasherFinish (state : Nat) : Nat := state % (2 ^ 64)

/-- Decimal digits of `n`, least significant first (always nonempty). -/
def natDigitsRev (n : Nat) : List Char :=
  if _h : n < 10 then [Char.ofNat (48 + n)]
  else Char.ofNat (48 + n % 10) :: natDigitsRev (n / 10)
termination_by n
decreasing_by exact Nat.div_lt_self (by omega) (by omega)

/-- Modelled from the spec: Rust's `u64::to_string`, the "decimal string form"
of the hash value (`hasher.finish().to_string()`). -/
def u64ToString (n : Nat) : String := ⟨(natDigitsRev n).reverse⟩

/-- Model of `sanitize_server_name` (tool_manager.rs lines 362-373). The Rust function
mutates a hasher passed by reference; we pass the hasher state explicitly and
return the possibly-updated state alongside the result string. The message of
a parse error is irrelevant here because `Regex::new` on the fixed pattern
cannot fail. -/
def sanitize_server_name (orig : String) (hstate : Nat) : String × Nat :=
  if validToolNameIsMatch orig then (orig, hstate)
  else
    let sanitized : String := ⟨orig.data.filter (fun c => validToolNameIsMatch ⟨[c]⟩)⟩
    if sanitized.data.isEmpty then
      let h2 := hasherWriteStr hstate orig
      (u64ToString (hasherFinish h2), h2)
    else (sanitized, hstate)

theorem validToolNameIsMatch_eq_any (s : String) :
    validToolNameIsMatch s = s.data.any (fun c => c.isAlpha) := by
  show s.data.tails.any validToolNameHit = s.data.any (fun c => c.isAlpha)
  induction s.data with
  | nil => rfl
  | cons c cs ih =>
    rw [List.tails_cons, List.any_cons, List.any_cons, ih]
    rfl

theorem validToolNameIsMatch_singleton (c : Char) :
    validToolNameIsMatch ⟨[c]⟩ = c.isAlpha := by
  rw [validToolNameIsMatch_eq_any]
  simp

theorem filter_eq_nil_of_no_alpha (s : String) (h : validToolNameIsMatch s = false) :
    s.data.filter (fun c => validToolNameIsMatch ⟨[c]⟩) = [] := by
  rw [validToolNameIsMatch_eq_any] at h
  rw [List.filter_eq_nil_iff]
  intro c hc
  have : c.isAlpha = false := by
    by_contra hcontra
    have : c.isAlpha = true := by
      cases hA : c.isAlpha
      · exact absurd hA hcontra
      · rfl
    exact absurd (List.any_eq_true.mpr ⟨c, hc, this⟩) (by simp [h])
  simp [validToolNameIsMatch_singleton, this]

theorem digit_char_spec (d : Nat) (hd : d < 10) :
    (Char.ofNat (48 + d)).isDigit = true ∧ (Char.ofNat (48 + d)).isAlpha = false := by
  interval_cases d <;> exact ⟨by decide, by decide⟩

theorem mem_natDigitsRev (n : Nat) :
    ∀ c ∈ natDigitsRev n, c.isDigit = true ∧ c.isAlpha = false := by
  induction n using Nat.strong_induction_on with
  | _ n ih =>
    rw [natDigitsRev]
    by_cases h : n < 10
    · simp only [h, dite_true]
      intro c hc
      rw [List.mem_singleton] at hc
      subst hc
      exact digit_char_spec n h
    · simp only [h, dite_false]
      intro c hc
      rw [List.mem_cons] at hc
      rcases hc with hc | hc
      · subst hc
        exact digit_char_spec (n % 10) (Nat.mod_lt _ (by omega))
      · exact ih (n / 10) (Nat.div_lt_self (by omega) (by omega)) c hc

theorem natDigitsRev_ne_nil (n : Nat) : natDigitsRev n ≠ [] := by
  rw [natDigitsRev]
  by_cases h : n < 10 <;> simp [h]

theorem u64ToString_ne_empty (n : Nat) : u64ToString n ≠ "" := by
  intro hcontra
  have : (u64ToString n).data = ("" : String).data := by rw [hcontra]
  simp only [u64ToString] at this
  have hnil : (natDigitsRev n).reverse = [] := this
  rw [List.reverse_eq_nil_iff] at hnil
  exact natDigitsRev_ne_nil n hnil

theorem u64ToString_all_digits (n : Nat) :
    ∀ c ∈ (u64ToString n).data, c.isDigit = true ∧ c.isAlpha = false := by
  intro c hc
  simp only [u64ToString] at hc
  rw [List.mem_reverse] at hc
  exact mem_natDigitsRev n c hc

theorem matchesValidToolName_u64ToString (n : Nat) :
    matchesValidToolName (u64ToString n) = false := by
  unfold matchesValidToolName
  cases hdata : (u64ToString n).data with
  | nil => rfl
  | cons c rest =>
    have hc : c ∈ (u64ToString n).data := by rw [hdata]; exact List.mem_cons_self _ _
    have := (u64ToString_all_digits n c hc).2
    simp [this]

theorem strData_append (a b : String) : (a ++ b).data = a.data ++ b.data := by
  cases a; cases b; rfl

theorem strLength_eq_data_length (s : String) : s.length = s.data.length := rfl

theorem strLength_append (a b : String) : (a ++ b).length = a.length + b.length := by
  rw [strLength_eq_data_length, strData_append, List.length_append]
  rfl

theorem ne_append_one (n : String) : n ≠ n ++ "1" := by
  intro h
  have h2 := congrArg String.length h
  rw [strLength_append] at h2
  have h3 : ("1" : String).length = 1 := rfl
  omega

/-- Shared case analysis of `sanitize_server_name`: the result is either the
original string (when the unanchored regex check succeeds) or the decimal
rendering of the hash (when it fails, in which case the per-character filter
necessarily yields the empty candidate). -/
theorem sanitize_cases (s : String) (hst : Nat) :
    (validToolNameIsMatch s = true ∧ sanitize_server_name s hst = (s, hst)) ∨
    (validToolNameIsMatch s = false ∧
      sanitize_server_name s hst =
        (u64ToString (hasherFinish (hasherWriteStr hst s)), hasherWriteStr hst s)) := by
  cases hm : validToolNameIsMatch s
  · right
    refine ⟨rfl, ?_⟩
    have hf := filter_eq_nil_of_no_alpha s hm
    simp only [sanitize_server_name, hm, Bool.false_eq_true, if_false, hf,
      List.isEmpty_nil, if_true]
  · left
    refine ⟨rfl, ?_⟩
    simp only [sanitize_server_name, hm, if_true]

theorem no_alpha_of_not_isMatch (s : String) (hm : validToolNameIsMatch s = false) :
    ∀ c ∈ s.data, c.isAlpha = false := by
  rw [validToolNameIsMatch_eq_any] at hm
  intro c hc
  cases hA : c.isAlpha
  · rfl
  · exact absurd (List.any_eq_true.mpr ⟨c, hc, hA⟩) (by simp [hm])

theorem isMatch_of_matchesFull (s : String) (h : matchesValidToolName s = true) :
    validToolNameIsMatch s = true := by
  rw [validToolNameIsMatch_eq_any]
  unfold matchesValidToolName at h
  cases hdata : s.data with
  | nil => rw [hdata] at h; exact absurd h (by simp)
  | cons c rest =>
    rw [hdata] at h
    simp only [Bool.and_eq_true] at h
    exact List.any_eq_true.mpr ⟨c, List.mem_cons_self _ _, h.1⟩

/-- C10: for every input, `sanitize_server_name` returns either the input
itself unchanged or the decimal hash fallback; the filtered-candidate branch
never contributes a distinct result, because the initial (unanchored) pattern
check fails exactly when the input contains no ASCII letter, and then the
per-character filter (which keeps only ASCII letters) yields the empty
candidate, forcing the hash fallback. -/
theorem c10_sanitize_dichotomy (s : String) (hst : Nat) :
    validToolNameIsMatch s = s.data.any (fun c => c.isAlpha) ∧
    ((sanitize_server_name s hst).1 = s ∨
      (sanitize_server_name s hst).1 = u64ToString (hasherFinish (hasherWriteStr hst s))) := by
  refine ⟨validToolNameIsMatch_eq_any s, ?_⟩
  rcases sanitize_cases s hst with ⟨_, heq⟩ | ⟨_, heq⟩
  · left; rw [heq]
  · right; rw [heq]

/-- C3 counterexample: the claim "for every input string the result of
sanitize starts with an ASCII letter and continues with letters, digits or
underscores" fails at the input `"a-b"`: because `Regex::is_match` is an
unanchored search, the check passes (the substring `"a"` matches), so the
name is returned unchanged even though it contains `'-'`. -/
theorem c3_counterexample :
    (sanitize_server_name "a-b" 0).1 = "a-b" ∧ matchesValidToolName "a-b" = false := by
  constructor
  · rfl
  · decide

/-- C3 amended: the result of sanitize satisfies the required name pattern
iff the input already fully satisfies it: an input containing any ASCII
letter is returned unchanged (the regex check is an unanchored substring
match), and a letterless input maps to a decimal hash string, which begins
with a digit and therefore also fails the letter-first pattern. -/
theorem c3_sanitize_pattern_iff (s : String) (hst : Nat) :
    matchesValidToolName (sanitize_server_name s hst).1 = matchesValidToolName s := by
  rcases sanitize_cases s hst with ⟨_, heq⟩ | ⟨hm, heq⟩
  · rw [heq]
  · rw [heq]
    show matchesValidToolName (u64ToString (hasherFinish (hasherWriteStr hst s))) =
      matchesValidToolName s
    rw [matchesValidToolName_u64ToString]
    symm
    unfold matchesValidToolName
    cases hdata : s.data with
    | nil => rfl
    | cons c rest =>
      have hc : c.isAlpha = false :=
        no_alpha_of_not_isMatch s hm c (by rw [hdata]; exact List.mem_cons_self _ _)
      simp [hc]

/-- C7: whenever the per-character filter leaves no characters, sanitize
returns the decimal string form of the hash of the original name — a
non-empty string of decimal digits — and sanitize never returns the empty
string for any input. -/
theorem c7_hash_fallback (s : String) (hst : Nat) :
    (s.data.filter (fun c => validToolNameIsMatch ⟨[c]⟩) = [] →
      (sanitize_server_name s hst).1 = u64ToString (hasherFinish (hasherWriteStr hst s)) ∧
      (sanitize_server_name s hst).1 ≠ "" ∧
      ∀ c ∈ ((sanitize_server_name s hst).1).data, c.isDigit = true) ∧
    (sanitize_server_name s hst).1 ≠ "" := by
  rcases sanitize_cases s hst with ⟨hm, heq⟩ | ⟨hm, heq⟩
  · constructor
    · intro hfilter
      rw [validToolNameIsMatch_eq_any] at hm
      obtain ⟨c, hc, hA⟩ := List.any_eq_true.mp hm
      have hmem : c ∈ s.data.filter (fun c => validToolNameIsMatch ⟨[c]⟩) :=
        List.mem_filter.mpr ⟨hc, by rw [validToolNameIsMatch_singleton]; exact hA⟩
      rw [hfilter] at hmem
      cases hmem
    · rw [heq]
      show s ≠ ""
      intro hcontra
      subst hcontra
      rw [validToolNameIsMatch_eq_any] at hm
      exact absurd hm (by decide)
  · constructor
    · intro _
      rw [heq]
      refine ⟨rfl, u64ToString_ne_empty _, ?_⟩
      intro c hc
      exact (u64ToString_all_digits _ c hc).1
    · rw [heq]
      exact u64ToString_ne_empty _

/-- C8: a provider name that already fully matches the required pattern
(starts with a letter, followed only by letters, digits, or underscores) is
returned unchanged by sanitize, with the hasher state untouched. -/
theorem c8_sanitize_identity (s : String) (hst : Nat)
    (hmatch : matchesValidToolName s = true) :
    sanitize_server_name s hst = (s, hst) := by
  rcases sanitize_cases s hst with ⟨_, heq⟩ | ⟨hm, heq⟩
  · exact heq
  · exact absurd (isMatch_of_matchesFull s hmatch) (by simp [hm])

theorem c8_sanitize_identity_witness :
    matchesValidToolName "abc_123" = true ∧ sanitize_server_name "abc_123" 0 = ("abc_123", 0) :=
  ⟨by decide, c8_sanitize_identity "abc_123" 0 (by decide)⟩

theorem c7_hash_fallback_witness :
    (sanitize_server_name "!!!" 0).1 = u64ToString (hasherFinish (hasherWriteStr 0 "!!!")) ∧
    (sanitize_server_name "!!!" 0).1 ≠ "" :=
  ⟨((c7_hash_fallback "!!!" 0).1 (by decide)).1, (c7_hash_fallback "!!!" 0).2⟩

/-- The name-collision "swap and retry" loop of `from_configs`
(tool_manager.rs lines 233-238):
`while let Some(collided_client) = clients.insert(name.clone(), client)
   { name.push('1'); client = collided_client; }`
modelled with explicit fuel (the Rust loop has no structural bound;
`c9_swap_retry_terminates` shows the fuel used below always suffices).
Clients are opaque `Arc<CustomToolClient>` handles, modelled as `Nat`. -/
def swapRetryFuel : Nat → List (String × Nat) → String → Nat → Option (List (String × Nat))
  | 0, _, _, _ => none
  | fuel + 1, m, name, client =>
    match lookupKV m name with
    | none => some (insertPair m name client)
    | some collided =>
      swapRetryFuel fuel (insertPair m name client) (name ++ "1") collided

/-- One collision-resolving insertion, as performed by `from_configs` for each
successfully initialized client; the fuel `maxKeyLen m + 2` is always
sufficient (`c9_swap_retry_terminates`), so the default is never taken. -/
def insertResolving (m : List (String × Nat)) (name : String) (client : Nat) :
    List (String × Nat) :=
  (swapRetryFuel (maxKeyLen m + 2) m name client).getD m

/-- Post-bootstrap accumulation of the successfully initialized clients into
the `clients` map (tool_manager.rs lines 228-255, success arm; failed boots
are skipped and never inserted). -/
def accumulateClients (results : List (String × Nat)) : List (String × Nat) :=
  results.foldl (fun m p => insertResolving m p.1 p.2) []

theorem swapRetryFuel_free (fuel : Nat) (m : List (String × Nat)) (name : String)
    (client : Nat) (hl : lookupKV m name = none) :
    swapRetryFuel (fuel + 1) m name client = some (insertPair m name client) := by
  simp only [swapRetryFuel, hl]

theorem swapRetryFuel_collide (fuel : Nat) (m : List (String × Nat)) (name : String)
    (client collided : Nat) (hl : lookupKV m name = some collided) :
    swapRetryFuel (fuel + 1) m name client =
      swapRetryFuel fuel (insertPair m name client) (name ++ "1") collided := by
  simp only [swapRetryFuel, hl]

theorem maxKeyLen_insertPair_of_mem (m : List (String × Nat)) (k : String) (v : Nat)
    (h : k ∈ keysOf m) : maxKeyLen (insertPair m k v) = maxKeyLen m := by
  unfold maxKeyLen
  rw [keysOf_insertPair_of_mem m k v h]

theorem swapRetryFuel_isSome (fuel : Nat) :
    ∀ (m : List (String × Nat)) (name : String) (client : Nat),
      maxKeyLen m + 2 ≤ name.length + fuel → 1 ≤ fuel →
      (swapRetryFuel fuel m name client).isSome = true := by
  induction fuel with
  | zero => intro _ _ _ _ h1; omega
  | succ f ih =>
    intro m name client hbound _
    cases hl : lookupKV m name with
    | none =>
      rw [swapRetryFuel_free f m name client hl]
      rfl
    | some collided =>
      rw [swapRetryFuel_collide f m name client collided hl]
      have hmem : name ∈ keysOf m := mem_keysOf_of_lookupKV m name collided hl
      have hlen : name.length ≤ maxKeyLen m := length_le_maxKeyLen m name hmem
      have hmax : maxKeyLen (insertPair m name client) = maxKeyLen m :=
        maxKeyLen_insertPair_of_mem m name client hmem
      apply ih
      · rw [hmax, strLength_append]
        have h1 : ("1" : String).length = 1 := rfl
        omega
      · omega

/-- C9: the collision-resolution swap-and-retry loop of `from_configs`
terminates for every finite client map and every inserted client: each
iteration appends a character to the candidate key, strictly increasing its
length while leaving the key set unchanged, so a fuel of
`maxKeyLen m + 2` lookups always reaches a free slot. -/
theorem c9_swap_retry_terminates (m : List (String × Nat)) (name : String) (client : Nat) :
    (swapRetryFuel (maxKeyLen m + 2) m name client).isSome = true := by
  apply swapRetryFuel_isSome
  · omega
  · omega

/-- C2: name-collision resolution follows the swap-and-retry displacement
scheme: inserting a freshly booted client under an occupied key evicts the
client previously occupying the slot; the candidate key gets a literal `"1"`
appended and the evicted client is re-inserted under it, repeating until a
free slot is found. In particular, two providers that sanitize to the same
name `n` end up under exactly the two distinct keys `n` and `n ++ "1"`,
bound to two distinct clients (the later arrival keeps `n`). -/
theorem c2_collision_displacement :
    (∀ (fuel : Nat) (m : List (String × Nat)) (name : String) (client collided : Nat),
      lookupKV m name = some collided →
      swapRetryFuel (fuel + 1) m name client =
        swapRetryFuel fuel (insertPair m name client) (name ++ "1") collided) ∧
    (∀ (n : String) (c₁ c₂ : Nat), c₁ ≠ c₂ →
      accumulateClients [(n, c₁), (n, c₂)] = [(n, c₂), (n ++ "1", c₁)] ∧
      n ≠ n ++ "1" ∧ c₂ ≠ c₁) := by
  constructor
  · intro fuel m name client collided hl
    exact swapRetryFuel_collide fuel m name client collided hl
  · intro n c₁ c₂ hne
    have hbeq2 : ((n ++ "1") == n) = false :=
      beq_eq_false_iff_ne.mpr (fun h => ne_append_one n h.symm)
    have hA : insertResolving [] n c₁ = [(n, c₁)] := rfl
    have hl1 : lookupKV [(n, c₁)] n = some c₁ := by simp [lookupKV]
    have hl2 : lookupKV [(n, c₂)] (n ++ "1") = none := by simp [lookupKV, hbeq2]
    have hins1 : insertPair [(n, c₁)] n c₂ = [(n, c₂)] := by simp [insertPair]
    have hins2 : insertPair [(n, c₂)] (n ++ "1") c₁ = [(n, c₂), (n ++ "1", c₁)] := by
      simp [insertPair, hbeq2]
    have hfuel : maxKeyLen [(n, c₁)] + 2 = (maxKeyLen [(n, c₁)] + 1) + 1 := rfl
    have hB : insertResolving [(n, c₁)] n c₂ = [(n, c₂), (n ++ "1", c₁)] := by
      unfold insertResolving
      rw [hfuel, swapRetryFuel_collide _ _ _ _ _ hl1, hins1,
        swapRetryFuel_free _ _ _ _ hl2, hins2]
      rfl
    refine ⟨?_, ne_append_one n, Ne.symm hne⟩
    show insertResolving (insertResolving [] n c₁) n c₂ = [(n, c₂), (n ++ "1", c₁)]
    rw [hA, hB]

theorem c2_collision_displacement_witness :
    swapRetryFuel (0 + 1) [("a", 5)] "a" 9 =
      swapRetryFuel 0 (insertPair [("a", 5)] "a" 9) ("a" ++ "1") 5 ∧
    accumulateClients [("srv", 0), ("srv", 1)] = [("srv", 1), ("srv" ++ "1", 0)] :=
  ⟨c2_collision_displacement.1 0 [("a", 5)] "a" 9 5 (by decide),
   (c2_collision_displacement.2 "srv" 0 1 (by decide)).1⟩

/-- Left-biased choice on options (`a.or b` — first one that is `some`). -/
def optOr {α : Type} : Option α → Option α → Option α
  | some v, _ => some v
  | none, b => b

/-- One iteration of the merge loop of `McpServerConfig::load_config`
(tool_manager.rs lines 74-88): insert the local entry into the accumulated
map; if the insertion overwrites an existing key, record a conflict notice
naming the server. `CustomToolConfig` values are opaque, modelled as `Nat`;
notices are the warned server names in emission order. -/
def mergeStep (acc : List (String × Nat) × List String) (p : String × Nat) :
    List (String × Nat) × List String :=
  if (lookupKV acc.1 p.1).isSome then (insertPair acc.1 p.1 p.2, acc.2 ++ [p.1])
  else (insertPair acc.1 p.1 p.2, acc.2)

/-- The both-sources-present branch of `McpServerConfig::load_config`: fold
every local entry over the parsed global map. -/
def mergeConfigs (globalConf localConf : List (String × Nat)) :
    List (String × Nat) × List String :=
  localConf.foldl mergeStep (globalConf, [])

theorem mergeConfigs_go (localConf : List (String × Nat)) :
    ∀ (g : List (String × Nat)) (acc : List String),
      (localConf.map Prod.fst).Nodup →
      (∀ k, lookupKV (localConf.foldl mergeStep (g, acc)).1 k =
        optOr (lookupKV localConf k) (lookupKV g k)) ∧
      (localConf.foldl mergeStep (g, acc)).2 =
        acc ++ (localConf.map Prod.fst).filter (fun k => (lookupKV g k).isSome) := by
  induction localConf with
  | nil =>
    intro g acc _
    exact ⟨fun k => rfl, by simp⟩
  | cons hd tl ih =>
    intro g acc hnodup
    obtain ⟨k, v⟩ := hd
    simp only [List.map_cons, List.nodup_cons] at hnodup
    obtain ⟨hknot, hnodup'⟩ := hnodup
    have hstep : mergeStep (g, acc) (k, v) =
        (insertPair g k v, acc ++ (if (lookupKV g k).isSome then [k] else [])) := by
      unfold mergeStep
      by_cases hs : (lookupKV g k).isSome <;> simp [hs]
    have ihres := ih (insertPair g k v)
      (acc ++ (if (lookupKV g k).isSome then [k] else [])) hnodup'
    constructor
    · intro k'
      rw [List.foldl_cons, hstep]
      rw [ihres.1 k']
      by_cases hb : (k' == k) = true
      · have hkk : k' = k := eq_of_beq hb
        subst hkk
        have htl : lookupKV tl k' = none :=
          lookupKV_eq_none_of_not_mem tl k' (by simpa [keysOf] using hknot)
        rw [htl, lookupKV_insertPair]
        simp [optOr, lookupKV]
      · rw [lookupKV_insertPair]
        simp [optOr, lookupKV, hb]
    · rw [List.foldl_cons, hstep, ihres.2]
      have hcongr : (tl.map Prod.fst).filter
            (fun x => (lookupKV (insertPair g k v) x).isSome) =
          (tl.map Prod.fst).filter (fun x => (lookupKV g x).isSome) := by
        apply List.filter_congr
        intro x hx
        have hxk : (x == k) = false := by
          apply beq_eq_false_iff_ne.mpr
          intro hcontra
          subst hcontra
          exact hknot hx
        rw [lookupKV_insertPair, hxk]
        simp
      rw [hcongr, List.map_cons, List.filter_cons, List.append_assoc]
      by_cases hs : (lookupKV g k).isSome <;> simp [hs]

/-- C5: when both the global and the workspace-local configuration parse,
the merged provider set is the global map with every local entry inserted
over it — the local definition wins on every key conflict — and exactly one
conflict notice naming the provider is emitted per key present in both. -/
theorem c5_merge_local_wins (g l : List (String × Nat))
    (hnodup : (l.map Prod.fst).Nodup) :
    (∀ k, lookupKV (mergeConfigs g l).1 k = optOr (lookupKV l k) (lookupKV g k)) ∧
    (mergeConfigs g l).2 = (l.map Prod.fst).filter (fun k => (lookupKV g k).isSome) := by
  have h := mergeConfigs_go l g [] hnodup
  refine ⟨h.1, ?_⟩
  show (l.foldl mergeStep (g, [])).2 = _
  rw [h.2]
  simp

theorem c5_merge_local_wins_witness :
    lookupKV (mergeConfigs [("A", 10)] [("A", 11), ("B", 12)]).1 "A" = some 11 ∧
    lookupKV (mergeConfigs [("A", 10)] [("A", 11), ("B", 12)]).1 "B" = some 12 ∧
    (mergeConfigs [("A", 10)] [("A", 11), ("B", 12)]).2 = ["A"] := by
  have h := c5_merge_local_wins [("A", 10)] [("A", 11), ("B", 12)] (by decide)
  refine ⟨?_, ?_, ?_⟩
  · rw [h.1 "A"]; rfl
  · rw [h.1 "B"]; rfl
  · rw [h.2]; rfl

/-- The `ToolResultStatus` type (from `fig_api_client::model`). -/
inductive ToolResultStatus where
  | success : ToolResultStatus
  | error : ToolResultStatus
deriving DecidableEq

/-- The `ToolResult` type (from `fig_api_client::model`); `content` holds the text of
each `ToolResultContentBlock::Text` block. -/
structure ToolResult where
  tool_use_id : String
  content : List String
  status : ToolResultStatus
deriving DecidableEq

/-- The `ToolUse` input (from the chat parser): correlation id, tool name, and
loosely-typed JSON arguments. -/
structure ToolUse where
  id : String
  name : String
  args : Json

/-- Modelled from the spec: `FsRead` lives in `tools/fs_read.rs`, outside
this repository slice; spec section 1 says built-in tools are "consumed here
only as deserializable parameter shapes". A record with one required field,
so that deserialization fails exactly when the field is missing. -/
structure FsRead where
  path : String
deriving DecidableEq

/-- Modelled from the spec: `FsWrite` parameter shape (see `FsRead`). -/
structure FsWrite where
  path : String
deriving DecidableEq

/-- Modelled from the spec: `ExecuteBash` parameter shape (see `FsRead`). -/
structure ExecuteBash where
  command : String
deriving DecidableEq

/-- Modelled from the spec: `UseAws` parameter shape (see `FsRead`). -/
structure UseAws where
  service : String
deriving DecidableEq

/-- Modelled from the spec: `GhIssue` parameter shape (see `FsRead`). -/
structure GhIssue where
  title : String
deriving DecidableEq

/-- The `CustomTool` type (the `RemoteCall` value): un-namespaced tool name, the
matched client handle, the remote method, and the parameter envelope. -/
structure CustomTool where
  name : String
  client : Nat
  method : String
  params : Option Json

/-- The `Tool` type: the dispatch result of routing. -/
inductive Tool where
  | fsRead (p : FsRead) : Tool
  | fsWrite (p : FsWrite) : Tool
  | executeBash (p : ExecuteBash) : Tool
  | useAws (p : UseAws) : Tool
  | ghIssue (p : GhIssue) : Tool
  | custom (c : CustomTool) : Tool

/-- Field access on a JSON object (used by the modelled deserializers). -/
def jsonGetField : Json → String → Option Json
  | .obj fields, key => lookupKV fields key
  | _, _ => none

/-- Modelled from the spec: `serde_json::from_value::<FsRead>` — succeeds
exactly when the required field is present with the right type. -/
def FsRead.fromValue (v : Json) : Option FsRead :=
  match jsonGetField v "path" with
  | some (.str s) => some ⟨s⟩
  | _ => none

/-- Modelled from the spec: `serde_json::from_value::<FsWrite>`. -/
def FsWrite.fromValue (v : Json) : Option FsWrite :=
  match jsonGetField v "path" with
  | some (.str s) => some ⟨s⟩
  | _ => none

/-- Modelled from the spec: `serde_json::from_value::<ExecuteBash>`. -/
def ExecuteBash.fromValue (v : Json) : Option ExecuteBash :=
  match jsonGetField v "command" with
  | some (.str s) => some ⟨s⟩
  | _ => none

/-- Modelled from the spec: `serde_json::from_value::<UseAws>`. -/
def UseAws.fromValue (v : Json) : Option UseAws :=
  match jsonGetField v "service" with
  | some (.str s) => some ⟨s⟩
  | _ => none

/-- Modelled from the spec: `serde_json::from_value::<GhIssue>`. -/
def GhIssue.fromValue (v : Json) : Option GhIssue :=
  match jsonGetField v "title" with
  | some (.str s) => some ⟨s⟩
  | _ => none

/-- List-level model of Rust's `str::split_once`: split at the FIRST
occurrence of the delimiter, yielding the parts before and after it. -/
def splitOnceList (delim : List Char) : List Char → Option (List Char × List Char)
  | [] => if delim.isPrefixOf ([] : List Char) then some ([], []) else none
  | c :: rest =>
    if delim.isPrefixOf (c :: rest) then some ([], (c :: rest).drop delim.length)
    else Option.map (fun p => (c :: p.1, p.2)) (splitOnceList delim rest)

/-- String-level `str::split_once`. -/
def splitOnce (s delim : String) : Option (String × String) :=
  Option.map (fun p => (⟨p.1⟩, ⟨p.2⟩)) (splitOnceList delim.data s.data)

theorem strEq_iff_data (a b : String) : a = b ↔ a.data = b.data := by
  constructor
  · intro h; rw [h]
  · intro h; cases a; cases b; cases h; rfl

theorem isPrefixOf_true_iff (l₁ : List Char) :
    ∀ l₂, l₁.isPrefixOf l₂ = true ↔ ∃ t, l₁ ++ t = l₂ := by
  induction l₁ with
  | nil =>
    intro l₂
    simp [List.isPrefixOf]
  | cons a as ih =>
    intro l₂
    cases l₂ with
    | nil =>
      simp [List.isPrefixOf]
    | cons b bs =>
      simp only [List.isPrefixOf, Bool.and_eq_true, beq_iff_eq, ih bs]
      constructor
      · rintro ⟨hab, t, ht⟩
        exact ⟨t, by rw [List.cons_append, hab, ht]⟩
      · rintro ⟨t, ht⟩
        rw [List.cons_append] at ht
        injection ht with h1 h2
        exact ⟨h1, t, h2⟩

theorem splitOnceList_sound (delim : List Char) :
    ∀ (cs a b : List Char), splitOnceList delim cs = some (a, b) →
      cs = a ++ delim ++ b ∧
      ∀ a' b', cs = a' ++ delim ++ b' → a.length ≤ a'.length := by
  intro cs
  induction cs with
  | nil =>
    intro a b h
    rw [splitOnceList] at h
    by_cases hp : delim.isPrefixOf ([] : List Char) = true
    · have hd : delim = [] := by
        rcases (isPrefixOf_true_iff delim []).mp hp with ⟨t, ht⟩
        cases delim with
        | nil => rfl
        | cons d ds => simp at ht
      simp only [hp, if_true, Option.some_inj] at h
      obtain ⟨ha, hb⟩ := Prod.mk.injEq _ _ _ _ ▸ h
      refine ⟨by simp [← ha, ← hb, hd], ?_⟩
      intro a' b' _
      simp [← ha]
    · simp only [hp, Bool.false_eq_true, if_false] at h
      cases h
  | cons c rest ih =>
    intro a b h
    rw [splitOnceList] at h
    by_cases hp : delim.isPrefixOf (c :: rest) = true
    · simp only [hp, if_true, Option.some_inj] at h
      obtain ⟨ha, hb⟩ := Prod.mk.injEq _ _ _ _ ▸ h
      rcases (isPrefixOf_true_iff delim (c :: rest)).mp hp with ⟨t, ht⟩
      have hdrop : (c :: rest).drop delim.length = t := by
        rw [← ht, List.drop_left]
      constructor
      · rw [← ha, ← hb, hdrop]
        simp [← ht]
      · intro a' b' _
        simp [← ha]
    · simp only [hp, Bool.false_eq_true, if_false] at h
      rcases Option.map_eq_some'.mp h with ⟨p, hrest, hpair⟩
      obtain ⟨ha, hb⟩ := Prod.mk.injEq _ _ _ _ ▸ hpair
      have ihres := ih p.1 p.2 hrest
      constructor
      · rw [← ha, ← hb]
        simp only [List.cons_append]
        rw [ihres.1]
      · intro a' b' hcs
        cases a' with
        | nil =>
          exfalso
          simp only [List.nil_append] at hcs
          have : delim.isPrefixOf (c :: rest) = true :=
            (isPrefixOf_true_iff delim (c :: rest)).mpr ⟨b', by rw [← hcs]⟩
          exact hp this
        | cons c' a'' =>
          simp only [List.cons_append, List.cons.injEq] at hcs
          have := ihres.2 a'' b' hcs.2
          rw [← ha]
          simpa using Nat.succ_le_succ this

theorem splitOnceList_none_sound (delim : List Char) :
    ∀ cs, splitOnceList delim cs = none → ∀ a b, cs ≠ a ++ delim ++ b := by
  intro cs
  induction cs with
  | nil =>
    intro h a b hcontra
    rw [splitOnceList] at h
    by_cases hp : delim.isPrefixOf ([] : List Char) = true
    · simp [hp] at h
    · have hd : delim ≠ [] := by
        intro hcontra2
        subst hcontra2
        simp [List.isPrefixOf] at hp
      have hlen := congrArg List.length hcontra
      simp only [List.length_nil, List.length_append] at hlen
      have : delim.length ≠ 0 := by
        simpa using hd
      omega
  | cons c rest ih =>
    intro h a b hcontra
    rw [splitOnceList] at h
    by_cases hp : delim.isPrefixOf (c :: rest) = true
    · simp [hp] at h
    · simp only [hp, Bool.false_eq_true, if_false, Option.map_eq_none'] at h
      cases a with
      | nil =>
        simp only [List.nil_append] at hcontra
        exact hp ((isPrefixOf_true_iff delim (c :: rest)).mpr ⟨b, by rw [← hcontra]⟩)
      | cons c' a'' =>
        simp only [List.cons_append, List.cons.injEq] at hcontra
        exact ih h a'' b hcontra.2

/-- The parameter-validation error result built by the `map_err` closure of
`get_tool_from_tool_use` (tool_manager.rs lines 309-315). The Rust message
interpolates the serde parse error, whose text is external to this slice;
the surrounding template and the status/id fields are modelled exactly. -/
def invalidParamsResult (id : String) : ToolResult :=
  { tool_use_id := id,
    content := ["Failed to validate tool parameters. The model has either suggested tool parameters which are incompatible with the existing tools, or has suggested one or more tool that does not exist in the list of known tools."],
    status := .error }

/-- The malformed-name error result (tool_manager.rs lines 325-331). -/
def malformedNameResult (id name : String) : ToolResult :=
  { tool_use_id := id,
    content := ["The tool, \"" ++ name ++ "\" is supplied with incorrect name"],
    status := .error }

/-- The unsupported-provider error result (tool_manager.rs lines 333-339). -/
def unsupportedProviderResult (id server_name : String) : ToolResult :=
  { tool_use_id := id,
    content := ["The tool, \"" ++ server_name ++ "\" is not supported by the client"],
    status := .error }

/-- Model of `ToolManager::get_tool_from_tool_use` (tool_manager.rs lines 308-359):
route an invocation by name to a built-in deserializer or, after splitting
the name at the first `NAMESPACE_DELIMITER`, to a `RemoteCall` envelope
targeting the booted client registered under the provider name. -/
def get_tool_from_tool_use (clients : List (String × Nat)) (value : ToolUse) :
    Except ToolResult Tool :=
  if value.name = "fs_read" then
    match FsRead.fromValue value.args with
    | some p => .ok (.fsRead p)
    | none => .error (invalidParamsResult value.id)
  else if value.name = "fs_write" then
    match FsWrite.fromValue value.args with
    | some p => .ok (.fsWrite p)
    | none => .error (invalidParamsResult value.id)
  else if value.name = "execute_bash" then
    match ExecuteBash.fromValue value.args with
    | some p => .ok (.executeBash p)
    | none => .error (invalidParamsResult value.id)
  else if value.name = "use_aws" then
    match UseAws.fromValue value.args with
    | some p => .ok (.useAws p)
    | none => .error (invalidParamsResult value.id)
  else if value.name = "report_issue" then
    match GhIssue.fromValue value.args with
    | some p => .ok (.ghIssue p)
    | none => .error (invalidParamsResult value.id)
  else
    match splitOnce value.name NAMESPACE_DELIMITER with
    | none => .error (malformedNameResult value.id value.name)
    | some (server_name, tool_name) =>
      match lookupKV clients server_name with
      | none => .error (unsupportedProviderResult value.id server_name)
      | some client =>
        .ok (.custom
          { name := tool_name, client := client, method := "tools/call",
            params := some (.obj [("name", .str tool_name), ("arguments", value.args)]) })

/-- C1: routing an invocation whose name is not a reserved built-in name
splits the name at the FIRST occurrence of the three-underscore delimiter
into `(providerName, toolName)`; with no delimiter it returns the
malformed-name error result, with an unknown provider the unsupported-
provider error result, and otherwise a `RemoteCall` on that client with
method `"tools/call"` and params `{name: toolName, arguments: args}`.
The second and third conjuncts pin down `splitOnce`: a successful split
decomposes the name around the first delimiter occurrence (so a tool name
itself containing the delimiter is preserved intact as everything after the
first occurrence), and a `none` result means no occurrence exists. -/
theorem c1_remote_routing :
    (∀ (clients : List (String × Nat)) (value : ToolUse),
      value.name ≠ "fs_read" → value.name ≠ "fs_write" →
      value.name ≠ "execute_bash" → value.name ≠ "use_aws" →
      value.name ≠ "report_issue" →
      get_tool_from_tool_use clients value =
        match splitOnce value.name NAMESPACE_DELIMITER with
        | none => .error (malformedNameResult value.id value.name)
        | some (server_name, tool_name) =>
          match lookupKV clients server_name with
          | none => .error (unsupportedProviderResult value.id server_name)
          | some client =>
            .ok (.custom
              { name := tool_name, client := client, method := "tools/call",
                params := some (.obj [("name", .str tool_name),
                  ("arguments", value.args)]) })) ∧
    (∀ (nm a b : String), splitOnce nm NAMESPACE_DELIMITER = some (a, b) →
      nm = a ++ NAMESPACE_DELIMITER ++ b ∧
      ∀ (a' b' : String), nm = a' ++ NAMESPACE_DELIMITER ++ b' →
        a.length ≤ a'.length) ∧
    (∀ nm : String, splitOnce nm NAMESPACE_DELIMITER = none →
      ∀ a b : String, nm ≠ a ++ NAMESPACE_DELIMITER ++ b) := by
  refine ⟨?_, ?_, ?_⟩
  · intro clients value h1 h2 h3 h4 h5
    unfold get_tool_from_tool_use
    rw [if_neg h1, if_neg h2, if_neg h3, if_neg h4, if_neg h5]
  · intro nm a b h
    rcases Option.map_eq_some'.mp h with ⟨p, hp, hpair⟩
    obtain ⟨ha, hb⟩ := Prod.mk.injEq _ _ _ _ ▸ hpair
    have hlist := splitOnceList_sound NAMESPACE_DELIMITER.data nm.data p.1 p.2 hp
    constructor
    · rw [strEq_iff_data, strData_append, strData_append, ← ha, ← hb]
      exact hlist.1
    · intro a' b' h'
      have h'' : nm.data = a'.data ++ NAMESPACE_DELIMITER.data ++ b'.data := by
        have hdd := congrArg String.data h'
        rwa [strData_append, strData_append] at hdd
      have hle := hlist.2 a'.data b'.data h''
      rw [strLength_eq_data_length, strLength_eq_data_length, ← ha]
      exact hle
  · intro nm h a b hcontra
    have hnone : splitOnceList NAMESPACE_DELIMITER.data nm.data = none :=
      Option.map_eq_none'.mp h
    have hdd := congrArg String.data hcontra
    rw [strData_append, strData_append] at hdd
    exact splitOnceList_none_sound NAMESPACE_DELIMITER.data nm.data hnone
      a.data b.data hdd

theorem c1_remote_routing_witness :
    get_tool_from_tool_use [("weather", 7)]
        ⟨"id1", "weather___get_forecast", Json.obj [("city", Json.str "Paris")]⟩ =
      Except.ok (Tool.custom
        { name := "get_forecast", client := 7, method := "tools/call",
          params := some (Json.obj [("name", Json.str "get_forecast"),
            ("arguments", Json.obj [("city", Json.str "Paris")])]) }) ∧
    "weather___get_forecast" = "weather" ++ NAMESPACE_DELIMITER ++ "get_forecast" := by
  constructor
  · rw [c1_remote_routing.1 [("weather", 7)]
      ⟨"id1", "weather___get_forecast", Json.obj [("city", Json.str "Paris")]⟩
      (by decide) (by decide) (by decide) (by decide) (by decide)]
    rfl
  · exact (c1_remote_routing.2.1 "weather___get_forecast" "weather" "get_forecast"
      (by rfl)).1

/-- C4: routing `"fs_read"` deserializes the arguments into the `FsRead`
parameter shape and returns the built-in `FsRead` tool value; when
deserialization fails, it returns (not raises) the typed parameter-error
result whose status is `error` and whose `tool_use_id` is the invocation's
correlation id. -/
theorem c4_fs_read_routing (clients : List (String × Nat)) (id : String) (args : Json) :
    (∀ p, FsRead.fromValue args = some p →
      get_tool_from_tool_use clients ⟨id, "fs_read", args⟩ = .ok (.fsRead p)) ∧
    (FsRead.fromValue args = none →
      get_tool_from_tool_use clients ⟨id, "fs_read", args⟩ =
          .error (invalidParamsResult id) ∧
        (invalidParamsResult id).status = .error ∧
        (invalidParamsResult id).tool_use_id = id) := by
  constructor
  · intro p hp
    show (if "fs_read" = "fs_read" then _ else _) = _
    rw [if_pos rfl]
    show (match FsRead.fromValue args with
      | some p => Except.ok (Tool.fsRead p)
      | none => Except.error (invalidParamsResult id)) = _
    rw [hp]
  · intro hp
    refine ⟨?_, rfl, rfl⟩
    show (if "fs_read" = "fs_read" then _ else _) = _
    rw [if_pos rfl]
    show (match FsRead.fromValue args with
      | some p => Except.ok (Tool.fsRead p)
      | none => Except.error (invalidParamsResult id)) = _
    rw [hp]

theorem c4_fs_read_routing_witness :
    get_tool_from_tool_use [] ⟨"tid", "fs_read", Json.obj [("path", Json.str "/tmp/f")]⟩ =
      Except.ok (Tool.fsRead ⟨"/tmp/f"⟩) ∧
    get_tool_from_tool_use [] ⟨"tid2", "fs_read", Json.obj []⟩ =
      Except.error (invalidParamsResult "tid2") :=
  ⟨(c4_fs_read_routing [] "tid" (Json.obj [("path", Json.str "/tmp/f")])).1 ⟨"/tmp/f"⟩ rfl,
   ((c4_fs_read_routing [] "tid2" (Json.obj [])).2 rfl).1⟩

/-- The `ToolSpec` type: a declared callable tool. The embedding carries the name
(which `load_tools` rewrites and keys the map by) and the description; the
input schema is opaque to the manager and omitted. -/
structure ToolSpec where
  name : String
  description : String
deriving DecidableEq

/-- The per-provider renaming/insertion loop of `load_tools`
(tool_manager.rs lines 284-287): each spec's name is rewritten to
`{providerName}{NAMESPACE_DELIMITER}{originalName}` and inserted. -/
def addSpecs (name : String) (specs : List ToolSpec) (acc : List (String × ToolSpec)) :
    List (String × ToolSpec) :=
  specs.foldl
    (fun acc2 spec =>
      insertPair acc2 (name ++ NAMESPACE_DELIMITER ++ spec.name)
        { spec with name := name ++ NAMESPACE_DELIMITER ++ spec.name })
    acc

/-- The result-consuming fold of `load_tools` (tool_manager.rs lines
278-304): successful spec fetches contribute renamed entries; failures are
reported and skipped. -/
def loadToolsGo (acc : List (String × ToolSpec))
    (results : List (String × Except Unit (String × List ToolSpec))) :
    List (String × ToolSpec) :=
  results.foldl
    (fun acc2 r =>
      match r.2 with
      | .ok p => addSpecs p.1 p.2 acc2
      | .error _ => acc2)
    acc

/-- Model of `ToolManager::load_tools` (tool_manager.rs lines 259-306), starting from
the embedded built-in catalog and folding in each provider's fetched specs.
The concurrent fetch plus join-error filtering is modelled by taking the
collected `(serverName, result)` list as input. -/
def load_tools (catalog : List (String × ToolSpec))
    (results : List (String × Except Unit (String × List ToolSpec))) :
    List (String × ToolSpec) :=
  loadToolsGo catalog results

theorem mem_keys_addSpecs_of_mem (name : String) (specs : List ToolSpec) :
    ∀ (acc : List (String × ToolSpec)) (k : String),
      k ∈ keysOf acc → k ∈ keysOf (addSpecs name specs acc) := by
  induction specs with
  | nil => intro acc k h; exact h
  | cons spec rest ih =>
    intro acc k h
    exact ih _ k (mem_keysOf_insertPair_of_mem acc _ k _ h)

theorem mem_keys_addSpecs_self (name : String) (specs : List ToolSpec) :
    ∀ (acc : List (String × ToolSpec)) (spec : ToolSpec), spec ∈ specs →
      (name ++ NAMESPACE_DELIMITER ++ spec.name) ∈ keysOf (addSpecs name specs acc) := by
  induction specs with
  | nil => intro acc spec h; cases h
  | cons spec0 rest ih =>
    intro acc spec h
    rcases List.mem_cons.mp h with h | h
    · subst h
      exact mem_keys_addSpecs_of_mem name rest _ _
        (mem_keysOf_insertPair_self acc _ _)
    · exact ih _ spec h

theorem mem_keys_loadToolsGo_of_mem
    (results : List (String × Except Unit (String × List ToolSpec))) :
    ∀ (acc : List (String × ToolSpec)) (k : String),
      k ∈ keysOf acc → k ∈ keysOf (loadToolsGo acc results) := by
  induction results with
  | nil => intro acc k h; exact h
  | cons r rest ih =>
    intro acc k h
    show k ∈ keysOf (loadToolsGo
      (match r.2 with
        | .ok p => addSpecs p.1 p.2 acc
        | .error _ => acc) rest)
    cases hr : r.2 with
    | ok p =>
      exact ih _ k (mem_keys_addSpecs_of_mem p.1 p.2 acc k h)
    | error e =>
      exact ih _ k h

theorem mem_keys_loadToolsGo_spec
    (results : List (String × Except Unit (String × List ToolSpec))) :
    ∀ (acc : List (String × ToolSpec)) (sn : String) (p : String × List ToolSpec),
      (sn, Except.ok p) ∈ results → ∀ spec, spec ∈ p.2 →
        (p.1 ++ NAMESPACE_DELIMITER ++ spec.name) ∈ keysOf (loadToolsGo acc results) := by
  induction results with
  | nil => intro acc sn p h; cases h
  | cons r rest ih =>
    intro acc sn p h spec hspec
    rcases List.mem_cons.mp h with h | h
    · subst h
      exact mem_keys_loadToolsGo_of_mem rest _ _
        (mem_keys_addSpecs_self p.1 p.2 acc spec hspec)
    · exact ih _ sn p h spec hspec

/-- C6: the tool-spec map returned by `load_tools` contains every built-in
name of the embedded catalog under its unmodified name, and, for every
successful provider result, every fetched spec under
`{providerName}___{originalName}` (provider name, three-underscore
delimiter, original remote name). -/
theorem c6_load_tools_names (catalog : List (String × ToolSpec))
    (results : List (String × Except Unit (String × List ToolSpec))) :
    (∀ k, k ∈ keysOf catalog → k ∈ keysOf (load_tools catalog results)) ∧
    (∀ (sn : String) (p : String × List ToolSpec), (sn, Except.ok p) ∈ results →
      ∀ spec, spec ∈ p.2 →
        (p.1 ++ NAMESPACE_DELIMITER ++ spec.name) ∈ keysOf (load_tools catalog results)) := by
  constructor
  · intro k h
    exact mem_keys_loadToolsGo_of_mem results catalog k h
  · intro sn p hmem spec hspec
    exact mem_keys_loadToolsGo_spec results catalog sn p hmem spec hspec

/-- Modelled from the spec: the embedded catalog `tools/tool_index.json` is
loaded at build time from a JSON file outside this repository slice; per the
spec it maps each built-in tool name to its spec. Used to instantiate the
C6 witness. -/
def builtinToolIndex : List (String × ToolSpec) :=
  [("fs_read", { name := "fs_read", description := "Read a file" }),
   ("fs_write", { name := "fs_write", description := "Write a file" }),
   ("execute_bash", { name := "execute_bash", description := "Run a shell command" }),
   ("use_aws", { name := "use_aws", description := "Call the AWS CLI" }),
   ("report_issue", { name := "report_issue", description := "Open an issue" })]

theorem c6_load_tools_names_witness :
    "fs_read" ∈ keysOf (load_tools builtinToolIndex
      [("weather", Except.ok ("weather", [{ name := "get_forecast", description := "f" }]))]) ∧
    ("weather" ++ NAMESPACE_DELIMITER ++ "get_forecast") ∈
      keysOf (load_tools builtinToolIndex
        [("weather", Except.ok ("weather", [{ name := "get_forecast", description := "f" }]))]) :=
  ⟨(c6_load_tools_names builtinToolIndex
      [("weather", Except.ok ("weather", [{ name := "get_forecast", description := "f" }]))]).1
      "fs_read" (by decide),
   (c6_load_tools_names builtinToolIndex
      [("weather", Except.ok ("weather", [{ name := "get_forecast", description := "f" }]))]).2
      "weather" ("weather", [{ name := "get_forecast", description := "f" }])
      (List.mem_singleton.mpr rfl) { name := "get_forecast", description := "f" }
      (List.mem_singleton.mpr rfl)⟩

end ToolManager
